import Mathlib

/-!
Verification of the value algebra of `src/v1/values.cpp`: the range
canonicalizer (`internal::coalesce`), the range algebra (union, difference,
equality, subset, removal), the set algebra equality, and the textual parser.

Machine integers: the C++ code stores `begin`/`end` of a range as `uint64_t`.
We embed them as `Nat` and make the two arithmetic operations that can
overflow in C++ (`current.end + 1` in the coalescing scan, and
`removal.begin - 1` / `removal.end + 1` in range removal) explicit modular
operations on `2^64`.
-/

namespace Mesos

/-- `2^64`, the modulus of `uint64_t` arithmetic. -/
def U64 : Nat := 18446744073709551616

/-- `x + 1` computed in `uint64_t` (wraps to `0` at `2^64 - 1`). -/
def u64add1 (x : Nat) : Nat := (x + 1) % U64

/-- `x - 1` computed in `uint64_t` (wraps to `2^64 - 1` at `0`). -/
def u64sub1 (x : Nat) : Nat := (x + (U64 - 1)) % U64

/-- A range with inclusive endpoints, as in `Value::Range` (protobuf fields
`begin`/`end`) and `internal::Range` (fields `start`/`end`); the two structs
are identified since the code converts between them field by field.
The C++ field `end` is a Lean keyword, hence `end_`. -/
structure Range where
  begin : Nat
  end_ : Nat
  deriving DecidableEq, Repr

/-- A `Value::Ranges` protobuf message: an ordered sequence of ranges. -/
abbrev Ranges := List Range

/-- Well-formedness of a range relative to an exclusive upper bound `B` on
`end`: `begin <= end` and `end < B`.  With `B = U64` this is exactly "a
well-formed pair of `uint64_t` values". -/
def wfB (B : Nat) (r : Range) : Prop := r.begin ≤ r.end_ ∧ r.end_ < B

/-- The comparator used by `std::sort` in `internal::coalesce`:
lexicographic order on `(start, end)` (here as the reflexive closure, which
sorts identically because the strict lexicographic comparator is a strict
total order). -/
def rangeLe (a b : Range) : Prop :=
  a.begin < b.begin ∨ (a.begin = b.begin ∧ a.end_ ≤ b.end_)

instance : DecidableRel rangeLe := fun a b => by
  unfold rangeLe; infer_instance

instance : IsTotal Range rangeLe :=
  ⟨fun a b => by unfold rangeLe; omega⟩

instance : IsTrans Range rangeLe :=
  ⟨fun a b c hab hbc => by unfold rangeLe at *; omega⟩

/-- The `std::sort` call of `internal::coalesce`.  Any comparison sort with
the lexicographic comparator produces the same list (the comparator is a
total order whose ties are equal elements), so insertion sort is a faithful
model. -/
def sortRanges (l : List Range) : List Range := List.insertionSort rangeLe l

/-- One step of the single left-to-right scan of `internal::coalesce`:
state is `(emitted so far, current accumulator)`, `r` is the next sorted
input range.  Translates the `foreach` body verbatim, including the
`uint64_t` wraparound of `current.end + 1`. -/
def scanStep : List Range × Range → Range → List Range × Range
  | (emitted, current), r =>
    if r.begin = current.begin ∧ r.end_ = current.end_ then
      (emitted, current)
    else if r.begin = current.begin ∧ r.end_ > current.end_ then
      (emitted, ⟨current.begin, r.end_⟩)
    else if r.begin > current.begin then
      if r.begin ≤ u64add1 current.end_ then
        (emitted, ⟨current.begin, max current.end_ r.end_⟩)
      else
        (emitted ++ [current], r)
    else
      (emitted, current)

/-- `internal::coalesce`: sort, scan, and emit `count` ranges.  The emitted
protobuf content is `emitted ++ [current]` (the in-place buffer reuse of the
C++ is an optimization with no observable effect on the resulting list). -/
def internalCoalesce (ranges : List Range) : List Range :=
  match sortRanges ranges with
  | [] => []
  | first :: rest =>
    let s := (first :: rest).foldl scanStep ([], first)
    s.1 ++ [s.2]

/-- The `count` variable of `internal::coalesce` at the end of the scan
(number of ranges recorded into the working vector; the checked
post-condition is `count <= ranges.size()`). -/
def coalesceCount (ranges : List Range) : Nat :=
  match sortRanges ranges with
  | [] => 0
  | first :: rest =>
    ((first :: rest).foldl scanStep ([], first)).1.length + 1

/-- `coalesce(Value::Ranges* result, initializer_list<Value::Ranges>)`:
flatten `result` followed by every added `Ranges` into one working vector
and run `internal::coalesce` on it. -/
def coalesce2 (result : Ranges) (addedRanges : List Ranges) : Ranges :=
  internalCoalesce (result ++ addedRanges.flatten)

/-- `coalesce(Value::Ranges* result)`: coalesce in place by adding the empty
`Ranges`. -/
def coalesce0 (result : Ranges) : Ranges := coalesce2 result [[]]

/-- `operator+(Value::Ranges, Value::Ranges)`: coalesce the concatenation. -/
def rangesAdd (left right : Ranges) : Ranges := coalesce2 [] [left, right]

/-- The body of the `foreach` loop of `remove(Value::Ranges*, Value::Range)`
for one stored range: the list of ranges it contributes to the rebuilt
working vector.  Note the faithful duplication: a stored range strictly
containing `removal` first emplaces front and back halves, and then the
trim-front branch emplaces the back half a second time (the duplicate is
merged away by the final coalesce). -/
def removePiece (range removal : Range) : List Range :=
  if range.begin ≥ removal.begin ∧ range.end_ ≤ removal.end_ then
    []
  else
    (if range.begin < removal.begin ∧ range.end_ > removal.end_ then
      [⟨range.begin, u64sub1 removal.begin⟩, ⟨u64add1 removal.end_, range.end_⟩]
    else []) ++
    (if range.end_ < removal.begin ∨ range.begin > removal.end_ then
      [range]
    else if range.end_ > removal.end_ then
      [⟨u64add1 removal.end_, range.end_⟩]
    else
      [⟨range.begin, u64sub1 removal.begin⟩])

/-- `remove(Value::Ranges* _ranges, const Value::Range& removal)`: rebuild
the working vector range by range and coalesce it. -/
def remove (ranges : Ranges) (removal : Range) : Ranges :=
  internalCoalesce (ranges.flatMap (fun r => removePiece r removal))

/-- `operator-(Value::Ranges, Value::Ranges)` by way of `operator-=`:
canonicalize the left side (`operator-` copies it through `coalesce`, then
`operator-=` re-coalesces), then remove every range of the right side. -/
def rangesSubtract (left right : Ranges) : Ranges :=
  right.foldl remove (coalesce0 (coalesce2 [] [left]))

/-- `operator==(Value::Ranges, Value::Ranges)`: coalesce both sides, then
require equal sizes and every left range to occur (by `begin`/`end` value)
somewhere in the right side. -/
def rangesEqB (left right : Ranges) : Bool :=
  let l := coalesce2 [] [left]
  let r := coalesce2 [] [right]
  if l.length = r.length then
    l.all (fun x => r.any (fun y => x.begin = y.begin ∧ x.end_ = y.end_))
  else
    false

/-- `operator<=(Value::Ranges, Value::Ranges)`: coalesce both sides, then
require every left range to be contained in a single right range. -/
def rangesSubsetB (left right : Ranges) : Bool :=
  let l := coalesce2 [] [left]
  let r := coalesce2 [] [right]
  l.all (fun x => r.any (fun y => x.begin ≥ y.begin ∧ x.end_ ≤ y.end_))

/-- `operator==(Value::Set, Value::Set)`, translated verbatim: equal sizes,
and for each index `i` an inner scan over `j` whose body compares
`left.item(i) == right.item(i)` — the inner index `j` is unused, which is
the latent positional-comparison defect of the source. -/
def setEqB (left right : List String) : Bool :=
  if left.length = right.length then
    (List.range left.length).all (fun i =>
      (List.range right.length).any (fun _j =>
        left.getD i "" = right.getD i ""))
  else
    false

/-- The set of integers covered by a list of ranges (both endpoints
inclusive). -/
def covP (rs : Ranges) (n : Nat) : Prop :=
  ∃ r ∈ rs, r.begin ≤ n ∧ n ≤ r.end_

instance (rs : Ranges) (n : Nat) : Decidable (covP rs n) := by
  unfold covP; infer_instance

/-- Canonical form of a `Ranges` value, as the specification defines it:
every element well-formed (`begin <= end`), elements sorted ascending by
`begin`, no two elements overlapping, and no two elements adjacent
(no pair satisfies `a.end + 1 == b.begin` in either order). -/
def Canonical (rs : Ranges) : Prop :=
  (∀ r ∈ rs, r.begin ≤ r.end_) ∧
  rs.Pairwise (fun a b => a.begin ≤ b.begin) ∧
  rs.Pairwise (fun a b => a.end_ < b.begin ∨ b.end_ < a.begin) ∧
  rs.Pairwise (fun a b => a.end_ + 1 ≠ b.begin ∧ b.end_ + 1 ≠ a.begin)

instance (rs : Ranges) : Decidable (Canonical rs) := by
  unfold Canonical; infer_instance

/-! ## The parser -/

/-- The four payload shapes of a `Value` message.  The scalar payload is a
C++ `double`; the decimal literals the parser accepts are embedded exactly
as rationals. -/
inductive Value where
  | scalar (value : ℚ)
  | ranges (ranges : List Range)
  | set (items : List String)
  | text (value : String)
  deriving DecidableEq, Repr

instance : DecidableEq (Except String Value) := fun a b =>
  match a, b with
  | .error x, .error y => decidable_of_iff (x = y) (by simp)
  | .error _, .ok _ => isFalse (by simp)
  | .ok _, .error _ => isFalse (by simp)
  | .ok x, .ok y => decidable_of_iff (x = y) (by simp)

/-- The space-stripping loop at the top of `parse`: keep every character
that is not `' '`. -/
def stripSpaces (s : String) : String :=
  String.mk (s.data.filter (fun c => c ≠ ' '))

/-- Modelled from the spec: the external bracket-balance checker
`strings::checkBracketsMatching(text, open, close)` (its source is not part
of this repository).  Per the spec it reports whether the given open/close
bracket pair is balanced in the text: scanning left to right, the close
bracket never outruns the open bracket, and the counts agree at the end. -/
def checkAux (openB closeB : Char) : List Char → Nat → Bool
  | [], k => k = 0
  | c :: cs, k =>
    if c = openB then checkAux openB closeB cs (k + 1)
    else if c = closeB then
      (if k = 0 then false else checkAux openB closeB cs (k - 1))
    else checkAux openB closeB cs k

/-- Modelled from the spec: `strings::checkBracketsMatching`. -/
def checkBracketsMatching (s : String) (openB closeB : Char) : Bool :=
  checkAux openB closeB s.data 0

/-- Modelled from the spec: the external string tokenizer
`strings::tokenize(text, delimiter_chars)` (its source is not part of this
repository).  Per the spec it splits the text on any of the delimiter
characters into the sequence of non-empty substring tokens. -/
def tokenizeAux (delims : List Char) : List Char → List Char → List String
  | [], cur => if cur.isEmpty then [] else [String.mk cur.reverse]
  | c :: cs, cur =>
    if c ∈ delims then
      (if cur.isEmpty then [] else [String.mk cur.reverse]) ++
        tokenizeAux delims cs []
    else
      tokenizeAux delims cs (c :: cur)

/-- Modelled from the spec: `strings::tokenize`. -/
def tokenize (s : String) (delims : List Char) : List String :=
  tokenizeAux delims s.data []

/-- The numeric value of a list of decimal digits. -/
def digitsToNat (cs : List Char) : Nat :=
  cs.foldl (fun n c => n * 10 + (c.toNat - '0'.toNat)) 0

/-- Modelled from the spec: the external numeric conversion
`boost::lexical_cast<uint64_t>` as the spec consumes it — a token is
accepted exactly when it parses as a non-negative integer, i.e. it is a
non-empty string of decimal digits (overflow past `2^64` is not modelled). -/
def lexicalCastU64 (s : String) : Option Nat :=
  if s.data ≠ [] ∧ s.data.all (fun c => c.isDigit) then
    some (digitsToNat s.data)
  else
    none

/-- Fraction-and-integer part of a decimal literal: `digits`, `digits.`,
`.digits` or `digits.digits`, with at least one digit. -/
def parseUnsignedDec (cs : List Char) : Option ℚ :=
  let intPart := cs.takeWhile (fun c => c.isDigit)
  let rest := cs.dropWhile (fun c => c.isDigit)
  match rest with
  | [] => if intPart = [] then none else some (digitsToNat intPart)
  | '.' :: frac =>
    if frac.all (fun c => c.isDigit) ∧ (intPart ≠ [] ∨ frac ≠ []) then
      some ((digitsToNat intPart : ℚ) +
        (digitsToNat frac : ℚ) / ((10 : ℚ) ^ frac.length))
    else
      none
  | _ => none

/-- Modelled from the spec: the external numeric conversion
`boost::lexical_cast<double>` as the spec consumes it — attempt to parse
the whole text as a floating-point number, yielding a value or failing
(decimal literals with optional sign and fraction; exponents and special
values are not exercised by this code's specification and not modelled). -/
def lexicalCastDouble (s : String) : Option ℚ :=
  match s.data with
  | '+' :: rest => parseUnsignedDec rest
  | '-' :: rest => (parseUnsignedDec rest).map Neg.neg
  | cs => parseUnsignedDec cs

/-- The begin/end pair loop of the ranges branch of `parse`: consume the
tokens two at a time, casting each to `uint64_t`; on the first failing cast
return the error naming that token (`tokens[j - 1]` in the source is the
token whose cast threw).  The singleton fallback is unreachable because the
caller has checked the token count to be even. -/
def parseRangePairs : List String → Except String (List Range)
  | [] => .ok []
  | [_] => .ok []
  | b :: e :: rest =>
    match lexicalCastU64 b with
    | none => .error ("Expecting non-negative integers in '" ++ b ++ "'")
    | some bv =>
      match lexicalCastU64 e with
      | none => .error ("Expecting non-negative integers in '" ++ e ++ "'")
      | some ev =>
        match parseRangePairs rest with
        | .error msg => .error msg
        | .ok rs => .ok (⟨bv, ev⟩ :: rs)

/-- The `Value::Ranges` branch of `parse`: tokenize on `[`, `]`, `-`, `,`
and newline, require an even token count, cast the pairs, and coalesce the
parsed ranges before returning. -/
def parseAsRanges (temp : String) : Except String Value :=
  let tokens := tokenize temp ['[', ']', '-', ',', '\n']
  if tokens.length % 2 ≠ 0 then
    .error "Expecting one or more \"ranges\""
  else
    match parseRangePairs tokens with
    | .error msg => .error msg
    | .ok rs => .ok (.ranges (coalesce0 rs))

/-- `internal::values::parse(const string& text)`. -/
def parse (text : String) : Except String Value :=
  let temp := stripSpaces text
  if temp.data.length = 0 then
    .error "Expecting non-empty string"
  else if ¬(checkBracketsMatching temp '\x7b' '\x7d' = true ∧
      checkBracketsMatching temp '[' ']' = true ∧
      checkBracketsMatching temp '(' ')' = true) then
    .error "Mismatched brackets"
  else if temp.data.head? = some '[' then
    parseAsRanges temp
  else if '[' ∉ temp.data then
    if temp.data.head? = some '\x7b' then
      .ok (.set (tokenize temp ['\x7b', '\x7d', ',', '\n']))
    else if '\x7b' ∉ temp.data then
      match lexicalCastDouble temp with
      | some q => .ok (.scalar q)
      | none => .ok (.text temp)
    else
      .error "Unexpected '\x7b' found"
  else
    .error "Unexpected '[' found"

/-! ## Helper lemmas: modular arithmetic, coverage, sorting -/

theorem u64add1_eq {x : Nat} (h : x + 1 < U64) : u64add1 x = x + 1 :=
  Nat.mod_eq_of_lt h

theorem u64sub1_eq {x : Nat} (h1 : 1 ≤ x) (h2 : x < U64) : u64sub1 x = x - 1 := by
  unfold u64sub1 U64 at *
  omega

theorem le_of_le_u64add1 {x y : Nat} (hy : y < U64) (hx : 0 < x)
    (h : x ≤ u64add1 y) : x ≤ y + 1 := by
  rcases Nat.lt_or_ge (y + 1) U64 with hlt | hge
  · rwa [u64add1_eq hlt] at h
  · have hy1 : y + 1 = U64 := by omega
    unfold u64add1 at h
    rw [hy1, Nat.mod_self] at h
    omega

theorem gt_of_not_le_u64add1 {x y : Nat} (hy : y + 1 < U64)
    (h : ¬ x ≤ u64add1 y) : y + 1 < x := by
  rw [u64add1_eq hy] at h
  omega

theorem covP_nil (n : Nat) : covP [] n ↔ False := by
  simp [covP]

theorem covP_cons (r : Range) (rs : Ranges) (n : Nat) :
    covP (r :: rs) n ↔ (r.begin ≤ n ∧ n ≤ r.end_) ∨ covP rs n := by
  simp [covP]

theorem covP_append (l1 l2 : Ranges) (n : Nat) :
    covP (l1 ++ l2) n ↔ covP l1 n ∨ covP l2 n := by
  simp [covP, or_and_right, exists_or]

theorem covP_congr_mem {l1 l2 : Ranges} (h : ∀ x, x ∈ l1 ↔ x ∈ l2) (n : Nat) :
    covP l1 n ↔ covP l2 n := by
  simp only [covP]
  constructor
  · rintro ⟨r, hr, hn⟩
    exact ⟨r, (h r).mp hr, hn⟩
  · rintro ⟨r, hr, hn⟩
    exact ⟨r, (h r).mpr hr, hn⟩

theorem rangeLe_refl (a : Range) : rangeLe a a := Or.inr ⟨rfl, le_refl _⟩

theorem Range.eq_of_fields {a b : Range} (h1 : a.begin = b.begin)
    (h2 : a.end_ = b.end_) : a = b := by
  cases a; cases b; simp_all

theorem rangeLe_begin_le {a b : Range} (h : rangeLe a b) : a.begin ≤ b.begin := by
  rcases h with h | ⟨h, _⟩ <;> omega

theorem sortRanges_perm (l : List Range) : List.Perm (sortRanges l) l :=
  List.perm_insertionSort _ l

theorem sortRanges_sorted (l : List Range) : List.Sorted rangeLe (sortRanges l) :=
  List.sorted_insertionSort _ l

theorem mem_sortRanges {x : Range} {l : List Range} : x ∈ sortRanges l ↔ x ∈ l :=
  (sortRanges_perm l).mem_iff

theorem length_sortRanges (l : List Range) : (sortRanges l).length = l.length :=
  (sortRanges_perm l).length_eq

theorem sortRanges_eq_nil {l : List Range} (h : sortRanges l = []) : l = [] := by
  have := length_sortRanges l
  rw [h] at this
  exact List.length_eq_zero.mp this.symm

/-! ## The coalescing scan: coverage preservation -/

/-- The single left-to-right scan of `internal::coalesce` preserves integer
coverage: the final `emitted ++ [current]` covers exactly what the initial
`emitted ++ [current]` plus the remaining sorted input covered.  Requires
every range involved to be a well-formed pair of `uint64_t` values and the
remaining input to be sorted at or after `current`. -/
theorem scan_cov : ∀ (l : List Range) (e : List Range) (c : Range),
    (∀ r ∈ l, wfB U64 r) → wfB U64 c →
    (∀ r ∈ l, rangeLe c r) → l.Pairwise rangeLe →
    ∀ n, (covP ((l.foldl scanStep (e, c)).1 ++ [(l.foldl scanStep (e, c)).2]) n ↔
      covP (e ++ [c]) n ∨ covP l n)
  | [], e, c, _, _, _, _, n => by simp [covP_nil]
  | r :: rest, e, c, hwl, hwc, hle, hpw, n => by
    have hwr : wfB U64 r := hwl r (by simp)
    have hwrest : ∀ x ∈ rest, wfB U64 x := fun x hx => hwl x (by simp [hx])
    have hpw' : rest.Pairwise rangeLe := (List.pairwise_cons.mp hpw).2
    have hler : ∀ x ∈ rest, rangeLe r x := (List.pairwise_cons.mp hpw).1
    have hcr : rangeLe c r := hle r (by simp)
    rw [List.foldl_cons]
    simp only [scanStep]
    split_ifs with h1 h2 h3 h4
    · -- skip: `r` is identical to `current`
      have hceq : c = r := Range.eq_of_fields h1.1.symm h1.2.symm
      subst hceq
      rw [scan_cov rest e c hwrest hwc (fun x hx => hler x hx) hpw' n]
      simp only [covP_append, covP_cons, covP_nil, or_false]
      itauto
    · -- extend current's end to the right (same begin, larger end)
      have hceq : (⟨c.begin, r.end_⟩ : Range) = r :=
        Range.eq_of_fields h2.1.symm rfl
      rw [hceq]
      rw [scan_cov rest e r hwrest hwr (fun x hx => hler x hx) hpw' n]
      simp only [covP_append, covP_cons, covP_nil, or_false]
      obtain ⟨h21, h22⟩ := h2
      have key : (c.begin ≤ n ∧ n ≤ c.end_) → (r.begin ≤ n ∧ n ≤ r.end_) := by
        omega
      itauto
    · -- overlapping or adjacent: merge into current
      have hadj : r.begin ≤ c.end_ + 1 :=
        le_of_le_u64add1 hwc.2 (by omega) h4
      have hwc' : wfB U64 (⟨c.begin, max c.end_ r.end_⟩ : Range) := by
        constructor
        · dsimp only
          omega
        · have := hwc.2
          have := hwr.2
          dsimp only
          omega
      have hle' : ∀ x ∈ rest, rangeLe (⟨c.begin, max c.end_ r.end_⟩ : Range) x := by
        intro x hx
        have := rangeLe_begin_le (hler x hx)
        exact Or.inl (by dsimp only; omega)
      rw [scan_cov rest e _ hwrest hwc' hle' hpw' n]
      simp only [covP_append, covP_cons, covP_nil, or_false]
      have key : (c.begin ≤ n ∧ n ≤ max c.end_ r.end_) ↔
          ((c.begin ≤ n ∧ n ≤ c.end_) ∨ (r.begin ≤ n ∧ n ≤ r.end_)) := by
        have h1 := hwr.1
        rcases Nat.le_total c.end_ r.end_ with hm | hm
        · rw [Nat.max_eq_right hm]; omega
        · rw [Nat.max_eq_left hm]; omega
      rw [key]
      itauto
    · -- no overlap: emit current, start a new accumulator
      rw [scan_cov rest (e ++ [c]) r hwrest hwr (fun x hx => hler x hx) hpw' n]
      simp only [covP_append, covP_cons, covP_nil, or_false]
      itauto
    · -- unreachable: the input is sorted, so `r.begin >= current.begin`
      exfalso
      rcases hcr with hlt | ⟨heq, hend⟩
      · omega
      · omega

/-! ## The coalescing scan: well-formedness preservation -/

/-- The scan never invents endpoints: if every involved range satisfies
`begin <= end < B`, so does everything in the final state. -/
theorem scan_wf (B : Nat) : ∀ (l : List Range) (e : List Range) (c : Range),
    (∀ r ∈ l, wfB B r) → wfB B c → (∀ x ∈ e, wfB B x) →
    (∀ x ∈ (l.foldl scanStep (e, c)).1, wfB B x) ∧
      wfB B (l.foldl scanStep (e, c)).2
  | [], e, c, _, hwc, hwe => by simpa using ⟨hwe, hwc⟩
  | r :: rest, e, c, hwl, hwc, hwe => by
    have hwr : wfB B r := hwl r (by simp)
    have hwrest : ∀ x ∈ rest, wfB B x := fun x hx => hwl x (by simp [hx])
    rw [List.foldl_cons]
    simp only [scanStep]
    split_ifs with h1 h2 h3 h4
    · exact scan_wf B rest e c hwrest hwc hwe
    · refine scan_wf B rest e _ hwrest ?_ hwe
      obtain ⟨h21, h22⟩ := h2
      have := hwr.1
      have := hwr.2
      exact ⟨by dsimp only; omega, by dsimp only; omega⟩
    · refine scan_wf B rest e _ hwrest ?_ hwe
      constructor
      · have := hwc.1
        dsimp only
        omega
      · have := hwc.2
        have := hwr.2
        dsimp only
        omega
    · refine scan_wf B rest (e ++ [c]) r hwrest hwr ?_
      intro x hx
      rcases List.mem_append.mp hx with hx | hx
      · exact hwe x hx
      · simpa using (List.mem_singleton.mp hx) ▸ hwc
    · exact scan_wf B rest e c hwrest hwc hwe

/-! ## Chain invariants of the scan: gaps and strictly increasing begins -/

/-- Two ranges in canonical succession: a genuine gap (neither overlapping
nor adjacent). -/
def gapRel (a b : Range) : Prop := a.end_ + 1 < b.begin

/-- Strictly increasing `begin`. -/
def beginLt (a b : Range) : Prop := a.begin < b.begin

instance : IsTrans Range beginLt :=
  ⟨fun _ _ _ hab hbc => Nat.lt_trans hab hbc⟩

theorem chain'_append_singleton {R : Range → Range → Prop} (e : List Range)
    (c : Range) :
    List.Chain' R (e ++ [c]) ↔ List.Chain' R e ∧ ∀ x ∈ e.getLast?, R x c := by
  rw [List.chain'_append]
  simp

theorem chain_retarget {R : Range → Range → Prop} {e : List Range}
    {c c' : Range} (h : List.Chain' R (e ++ [c]))
    (himp : ∀ x, R x c → R x c') : List.Chain' R (e ++ [c']) := by
  rw [chain'_append_singleton] at h ⊢
  exact ⟨h.1, fun x hx => himp x (h.2 x hx)⟩

theorem chain_emit {R : Range → Range → Prop} {e : List Range} {c r : Range}
    (h : List.Chain' R (e ++ [c])) (hcr : R c r) :
    List.Chain' R ((e ++ [c]) ++ [r]) := by
  rw [chain'_append_singleton]
  refine ⟨h, ?_⟩
  intro x hx
  rw [List.getLast?_concat] at hx
  cases hx
  exact hcr

/-- After the scan on input whose ends stay below `2^64 - 1`, the final
`emitted ++ [current]` is separated by genuine gaps. -/
theorem scan_canon : ∀ (l : List Range) (e : List Range) (c : Range),
    (∀ r ∈ l, wfB (U64 - 1) r) → wfB (U64 - 1) c →
    (∀ r ∈ l, rangeLe c r) → l.Pairwise rangeLe →
    List.Chain' gapRel (e ++ [c]) →
    List.Chain' gapRel
      ((l.foldl scanStep (e, c)).1 ++ [(l.foldl scanStep (e, c)).2])
  | [], _, _, _, _, _, _, hch => hch
  | r :: rest, e, c, hwl, hwc, hle, hpw, hch => by
    have hwr : wfB (U64 - 1) r := hwl r (by simp)
    have hwrest : ∀ x ∈ rest, wfB (U64 - 1) x := fun x hx => hwl x (by simp [hx])
    have hpw' : rest.Pairwise rangeLe := (List.pairwise_cons.mp hpw).2
    have hler : ∀ x ∈ rest, rangeLe r x := (List.pairwise_cons.mp hpw).1
    have hcr : rangeLe c r := hle r (by simp)
    rw [List.foldl_cons]
    simp only [scanStep]
    split_ifs with h1 h2 h3 h4
    · have hceq : c = r := Range.eq_of_fields h1.1.symm h1.2.symm
      subst hceq
      exact scan_canon rest e c hwrest hwc (fun x hx => hler x hx) hpw' hch
    · refine scan_canon rest e _ ?_ ?_ ?_ hpw' ?_
      · exact hwrest
      · obtain ⟨h21, h22⟩ := h2
        have := hwr.1
        exact ⟨by dsimp only; omega, by dsimp only; exact hwr.2⟩
      · intro x hx
        have hceq : (⟨c.begin, r.end_⟩ : Range) = r :=
          Range.eq_of_fields h2.1.symm rfl
        rw [hceq]
        exact hler x hx
      · exact chain_retarget hch (fun x hx => by
          unfold gapRel at hx ⊢
          dsimp only
          exact hx)
    · refine scan_canon rest e _ ?_ ?_ ?_ hpw' ?_
      · exact hwrest
      · constructor
        · have := hwc.1
          dsimp only
          omega
        · have := hwc.2
          have := hwr.2
          dsimp only
          omega
      · intro x hx
        have := rangeLe_begin_le (hler x hx)
        exact Or.inl (by dsimp only; omega)
      · exact chain_retarget hch (fun x hx => by
          unfold gapRel at hx ⊢
          dsimp only
          exact hx)
    · refine scan_canon rest (e ++ [c]) r hwrest hwr (fun x hx => hler x hx)
        hpw' ?_
      refine chain_emit hch ?_
      unfold gapRel
      have hlt : c.end_ + 1 < U64 := by
        have := hwc.2
        unfold U64 at *
        omega
      exact gt_of_not_le_u64add1 hlt h4
    · exfalso
      rcases hcr with hlt | ⟨heq, hend⟩
      · omega
      · omega

/-- The scan always produces strictly increasing `begin`s (given sorted
input), with no well-formedness assumptions at all. -/
theorem scan_beginLt : ∀ (l : List Range) (e : List Range) (c : Range),
    (∀ r ∈ l, rangeLe c r) → l.Pairwise rangeLe →
    List.Chain' beginLt (e ++ [c]) →
    List.Chain' beginLt
      ((l.foldl scanStep (e, c)).1 ++ [(l.foldl scanStep (e, c)).2])
  | [], _, _, _, _, hch => hch
  | r :: rest, e, c, hle, hpw, hch => by
    have hpw' : rest.Pairwise rangeLe := (List.pairwise_cons.mp hpw).2
    have hler : ∀ x ∈ rest, rangeLe r x := (List.pairwise_cons.mp hpw).1
    have hcr : rangeLe c r := hle r (by simp)
    rw [List.foldl_cons]
    simp only [scanStep]
    split_ifs with h1 h2 h3 h4
    · have hceq : c = r := Range.eq_of_fields h1.1.symm h1.2.symm
      subst hceq
      exact scan_beginLt rest e c (fun x hx => hler x hx) hpw' hch
    · refine scan_beginLt rest e _ ?_ hpw' ?_
      · intro x hx
        have hceq : (⟨c.begin, r.end_⟩ : Range) = r :=
          Range.eq_of_fields h2.1.symm rfl
        rw [hceq]
        exact hler x hx
      · exact chain_retarget hch (fun x hx => by
          unfold beginLt at hx ⊢
          dsimp only
          exact hx)
    · refine scan_beginLt rest e _ ?_ hpw' ?_
      · intro x hx
        have := rangeLe_begin_le (hler x hx)
        exact Or.inl (by dsimp only; omega)
      · exact chain_retarget hch (fun x hx => by
          unfold beginLt at hx ⊢
          dsimp only
          exact hx)
    · refine scan_beginLt rest (e ++ [c]) r (fun x hx => hler x hx) hpw' ?_
      exact chain_emit hch h3
    · exfalso
      rcases hcr with hlt | ⟨heq, hend⟩
      · omega
      · omega

/-- The scan emits at most one range per consumed input element. -/
theorem scan_len : ∀ (l : List Range) (e : List Range) (c : Range),
    ((l.foldl scanStep (e, c)).1).length ≤ e.length + l.length
  | [], e, c => by simp
  | r :: rest, e, c => by
    rw [List.foldl_cons]
    simp only [scanStep]
    split_ifs with h1 h2 h3 h4
    · have := scan_len rest e c
      simp only [List.length_cons]
      omega
    · have := scan_len rest e (⟨c.begin, r.end_⟩ : Range)
      simp only [List.length_cons]
      omega
    · have := scan_len rest e (⟨c.begin, max c.end_ r.end_⟩ : Range)
      simp only [List.length_cons]
      omega
    · have h := scan_len rest (e ++ [c]) r
      simp only [List.length_append, List.length_cons, List.length_nil] at h ⊢
      omega
    · have := scan_len rest e c
      simp only [List.length_cons]
      omega

/-! ## Assembled facts about `internalCoalesce` -/

theorem internalCoalesce_eq_nil {rs : Ranges} (hs : sortRanges rs = []) :
    internalCoalesce rs = [] := by
  unfold internalCoalesce
  rw [hs]

theorem internalCoalesce_eq_cons {rs : Ranges} {first : Range}
    {rest : List Range} (hs : sortRanges rs = first :: rest) :
    internalCoalesce rs =
      ((first :: rest).foldl scanStep ([], first)).1 ++
        [((first :: rest).foldl scanStep ([], first)).2] := by
  unfold internalCoalesce
  rw [hs]

theorem coalesceCount_eq_cons {rs : Ranges} {first : Range}
    {rest : List Range} (hs : sortRanges rs = first :: rest) :
    coalesceCount rs =
      ((first :: rest).foldl scanStep ([], first)).1.length + 1 := by
  unfold coalesceCount
  rw [hs]

/-- Hypotheses handed to the scan lemmas at the start of
`internalCoalesce`. -/
theorem sorted_head_facts {rs : Ranges} {first : Range} {rest : List Range}
    (hs : sortRanges rs = first :: rest) :
    (first :: rest).Pairwise rangeLe ∧
      (∀ x ∈ first :: rest, rangeLe first x) ∧
      (∀ x ∈ first :: rest, x ∈ rs) := by
  have hsorted := sortRanges_sorted rs
  rw [hs] at hsorted
  have hpw : (first :: rest).Pairwise rangeLe := hsorted
  refine ⟨hpw, ?_, ?_⟩
  · intro x hx
    rcases List.mem_cons.mp hx with rfl | hx
    · exact rangeLe_refl x
    · exact (List.pairwise_cons.mp hpw).1 x hx
  · intro x hx
    exact mem_sortRanges.mp (hs ▸ hx)

/-- Coverage preservation of `internal::coalesce` for well-formed
`uint64_t` ranges. -/
theorem internalCoalesce_cov (rs : Ranges) (h : ∀ r ∈ rs, wfB U64 r)
    (n : Nat) : covP (internalCoalesce rs) n ↔ covP rs n := by
  rcases hs : sortRanges rs with _ | ⟨first, rest⟩
  · have : rs = [] := sortRanges_eq_nil hs
    subst this
    rw [internalCoalesce_eq_nil hs]
  · obtain ⟨hpw, hle, hmem⟩ := sorted_head_facts hs
    have hw : ∀ x ∈ first :: rest, wfB U64 x := fun x hx => h x (hmem x hx)
    have hcov := scan_cov (first :: rest) [] first hw (hw first (by simp))
      hle hpw n
    rw [List.nil_append] at hcov
    rw [internalCoalesce_eq_cons hs, hcov]
    have hrs : covP rs n ↔ covP (first :: rest) n := by
      rw [← hs]
      exact (covP_congr_mem (fun x => mem_sortRanges) n).symm
    rw [hrs]
    simp only [covP_cons, covP_nil, or_false]
    itauto

/-- `internal::coalesce` never invents endpoints. -/
theorem internalCoalesce_wf (B : Nat) (rs : Ranges)
    (h : ∀ r ∈ rs, wfB B r) : ∀ x ∈ internalCoalesce rs, wfB B x := by
  rcases hs : sortRanges rs with _ | ⟨first, rest⟩
  · rw [internalCoalesce_eq_nil hs]
    simp
  · obtain ⟨hpw, _, hmem⟩ := sorted_head_facts hs
    have hw : ∀ x ∈ first :: rest, wfB B x := fun x hx => h x (hmem x hx)
    obtain ⟨he, hc⟩ := scan_wf B (first :: rest) [] first hw
      (hw first (by simp)) (by simp)
    rw [internalCoalesce_eq_cons hs]
    intro x hx
    rcases List.mem_append.mp hx with hx | hx
    · exact he x hx
    · rw [List.mem_singleton.mp hx]
      exact hc

/-- The output of `internal::coalesce` has genuine gaps between successive
ranges, provided every input end stays below `2^64 - 1` (at `2^64 - 1`
the `current.end + 1` adjacency test wraps around). -/
theorem internalCoalesce_chainGap (rs : Ranges)
    (h : ∀ r ∈ rs, wfB (U64 - 1) r) :
    List.Chain' gapRel (internalCoalesce rs) := by
  rcases hs : sortRanges rs with _ | ⟨first, rest⟩
  · rw [internalCoalesce_eq_nil hs]
    exact List.chain'_nil
  · obtain ⟨hpw, hle, hmem⟩ := sorted_head_facts hs
    have hw : ∀ x ∈ first :: rest, wfB (U64 - 1) x :=
      fun x hx => h x (hmem x hx)
    rw [internalCoalesce_eq_cons hs]
    exact scan_canon (first :: rest) [] first hw (hw first (by simp)) hle hpw
      (by simp)

/-- The output of `internal::coalesce` has strictly increasing `begin`s,
with no hypotheses on the input at all. -/
theorem internalCoalesce_chain_beginLt (rs : Ranges) :
    List.Chain' beginLt (internalCoalesce rs) := by
  rcases hs : sortRanges rs with _ | ⟨first, rest⟩
  · rw [internalCoalesce_eq_nil hs]
    exact List.chain'_nil
  · obtain ⟨hpw, hle, _⟩ := sorted_head_facts hs
    rw [internalCoalesce_eq_cons hs]
    exact scan_beginLt (first :: rest) [] first hle hpw (by simp)

theorem internalCoalesce_nodup (rs : Ranges) : (internalCoalesce rs).Nodup := by
  have h := List.chain'_iff_pairwise.mp (internalCoalesce_chain_beginLt rs)
  exact h.imp (fun hab => by
    intro heq
    rw [heq] at hab
    exact lt_irrefl _ hab)

/-- From a chain of genuine gaps over well-formed ranges, every earlier
range gaps every later one. -/
theorem gap_head : ∀ (l : List Range) (x : Range),
    (∀ r ∈ l, r.begin ≤ r.end_) → List.Chain' gapRel (x :: l) →
    ∀ y ∈ l, x.end_ + 1 < y.begin
  | [], _, _, _ => by simp
  | z :: zs, x, hwf, hch => by
    have hxz : gapRel x z := (List.chain'_cons.mp hch).1
    have hch' : List.Chain' gapRel (z :: zs) := (List.chain'_cons.mp hch).2
    intro y hy
    rcases List.mem_cons.mp hy with rfl | hy
    · exact hxz
    · have hz : z.begin ≤ z.end_ := hwf z (by simp)
      have := gap_head zs z (fun r hr => hwf r (by simp [hr])) hch' y hy
      unfold gapRel at *
      omega

/-- A gap-chained list of well-formed ranges is canonical in the claim's
sense. -/
theorem canonical_of_chainGap : ∀ (l : List Range),
    (∀ r ∈ l, r.begin ≤ r.end_) → List.Chain' gapRel l → Canonical l
  | [], _, _ => by simp [Canonical]
  | x :: xs, hwf, hch => by
    have hxs : ∀ r ∈ xs, r.begin ≤ r.end_ := fun r hr => hwf r (by simp [hr])
    have hch' : List.Chain' gapRel xs := hch.tail
    have hhead := gap_head xs x hxs hch
    obtain ⟨c1, c2, c3, c4⟩ := canonical_of_chainGap xs hxs hch'
    have hx : x.begin ≤ x.end_ := hwf x (by simp)
    refine ⟨hwf, ?_, ?_, ?_⟩
    · exact List.pairwise_cons.mpr
        ⟨fun y hy => by have := hhead y hy; omega, c2⟩
    · refine List.pairwise_cons.mpr ⟨fun y hy => ?_, c3⟩
      have := hhead y hy
      omega
    · refine List.pairwise_cons.mpr ⟨fun y hy => ?_, c4⟩
      have h1 := hhead y hy
      have h2 := hxs y hy
      omega

/-- Canonicity of `internal::coalesce` for inputs whose ends stay below
`2^64 - 1`. -/
theorem internalCoalesce_canonical (rs : Ranges)
    (h : ∀ r ∈ rs, wfB (U64 - 1) r) : Canonical (internalCoalesce rs) :=
  canonical_of_chainGap _
    (fun r hr => (internalCoalesce_wf (U64 - 1) rs h r hr).1)
    (internalCoalesce_chainGap rs h)

/-! ## Range removal and subtraction -/

/-- The contribution of one stored range to the working vector of `remove`
is exactly its coverage minus the removal's coverage. -/
theorem removePiece_cov (range removal : Range) (h1 : wfB U64 range)
    (h2 : wfB U64 removal) (n : Nat) :
    covP (removePiece range removal) n ↔
      ((range.begin ≤ n ∧ n ≤ range.end_) ∧
        ¬(removal.begin ≤ n ∧ n ≤ removal.end_)) := by
  obtain ⟨h1a, h1b⟩ := h1
  obtain ⟨h2a, h2b⟩ := h2
  unfold removePiece
  split_ifs with hsub hdiv hdisj htf
  · simp only [covP_nil, false_iff]
    omega
  · have hs1 : u64sub1 removal.begin = removal.begin - 1 :=
      u64sub1_eq (by omega) (by omega)
    have ha1 : u64add1 removal.end_ = removal.end_ + 1 :=
      u64add1_eq (by omega)
    simp only [covP_append, covP_cons, covP_nil, or_false, hs1, ha1]
    omega
  · have hs1 : u64sub1 removal.begin = removal.begin - 1 :=
      u64sub1_eq (by omega) (by omega)
    have ha1 : u64add1 removal.end_ = removal.end_ + 1 :=
      u64add1_eq (by omega)
    simp only [covP_append, covP_cons, covP_nil, or_false, hs1, ha1]
    omega
  · have hs1 : u64sub1 removal.begin = removal.begin - 1 :=
      u64sub1_eq (by omega) (by omega)
    simp only [covP_append, covP_cons, covP_nil, or_false, hs1]
    omega
  · simp only [List.nil_append, covP_cons, covP_nil, or_false]
    omega
  · have ha1 : u64add1 removal.end_ = removal.end_ + 1 :=
      u64add1_eq (by omega)
    simp only [List.nil_append, covP_cons, covP_nil, or_false, ha1]
    omega
  · have hs1 : u64sub1 removal.begin = removal.begin - 1 :=
      u64sub1_eq (by omega) (by omega)
    simp only [List.nil_append, covP_cons, covP_nil, or_false, hs1]
    omega

/-- The pieces emitted by `remove` for one stored range stay well-formed. -/
theorem removePiece_wf (B : Nat) (hBle : B ≤ U64) (range removal : Range)
    (h1 : wfB B range)
    (h2 : wfB B removal) : ∀ x ∈ removePiece range removal, wfB B x := by
  obtain ⟨h1a, h1b⟩ := h1
  obtain ⟨h2a, h2b⟩ := h2
  intro x hx
  unfold removePiece at hx
  split_ifs at hx with hsub hdiv hdisj htf
  all_goals
    simp only [List.mem_append, List.mem_cons, List.not_mem_nil, or_false,
      List.nil_append, false_or] at hx
  · rcases hx with (rfl | rfl) | rfl
    · have hs1 : u64sub1 removal.begin = removal.begin - 1 :=
        u64sub1_eq (by omega) (by omega)
      exact ⟨by dsimp only; omega, by dsimp only; rw [hs1]; omega⟩
    · have ha1 : u64add1 removal.end_ = removal.end_ + 1 :=
        u64add1_eq (by omega)
      exact ⟨by dsimp only; rw [ha1]; omega, by dsimp only; omega⟩
    · exact ⟨h1a, h1b⟩
  · rcases hx with (rfl | rfl) | rfl
    · have hs1 : u64sub1 removal.begin = removal.begin - 1 :=
        u64sub1_eq (by omega) (by omega)
      exact ⟨by dsimp only; omega, by dsimp only; rw [hs1]; omega⟩
    · have ha1 : u64add1 removal.end_ = removal.end_ + 1 :=
        u64add1_eq (by omega)
      exact ⟨by dsimp only; rw [ha1]; omega, by dsimp only; omega⟩
    · have ha1 : u64add1 removal.end_ = removal.end_ + 1 :=
        u64add1_eq (by omega)
      exact ⟨by dsimp only; rw [ha1]; omega, by dsimp only; omega⟩
  · rcases hx with (rfl | rfl) | rfl
    · have hs1 : u64sub1 removal.begin = removal.begin - 1 :=
        u64sub1_eq (by omega) (by omega)
      exact ⟨by dsimp only; omega, by dsimp only; rw [hs1]; omega⟩
    · have ha1 : u64add1 removal.end_ = removal.end_ + 1 :=
        u64add1_eq (by omega)
      exact ⟨by dsimp only; rw [ha1]; omega, by dsimp only; omega⟩
    · have hs1 : u64sub1 removal.begin = removal.begin - 1 :=
        u64sub1_eq (by omega) (by omega)
      exact ⟨by dsimp only; rw [hs1]; omega, by dsimp only; rw [hs1]; omega⟩
  · cases hx
    exact ⟨h1a, h1b⟩
  · cases hx
    have ha1 : u64add1 removal.end_ = removal.end_ + 1 :=
      u64add1_eq (by omega)
    exact ⟨by dsimp only; rw [ha1]; omega, by dsimp only; omega⟩
  · cases hx
    have hs1 : u64sub1 removal.begin = removal.begin - 1 :=
      u64sub1_eq (by omega) (by omega)
    exact ⟨by dsimp only; rw [hs1]; omega, by dsimp only; rw [hs1]; omega⟩

theorem covP_flatMap (f : Range → List Range) (l : Ranges) (n : Nat) :
    covP (l.flatMap f) n ↔ ∃ r ∈ l, covP (f r) n := by
  simp only [covP, List.mem_flatMap]
  constructor
  · rintro ⟨x, ⟨r, hr, hx⟩, hn⟩
    exact ⟨r, hr, x, hx, hn⟩
  · rintro ⟨r, hr, x, hx, hn⟩
    exact ⟨x, ⟨r, hr, hx⟩, hn⟩

theorem remove_pieces_wf (B : Nat) (hBle : B ≤ U64) (rs : Ranges)
    (removal : Range)
    (h : ∀ r ∈ rs, wfB B r) (hrm : wfB B removal) :
    ∀ x ∈ rs.flatMap (fun r => removePiece r removal), wfB B x := by
  intro x hx
  rw [List.mem_flatMap] at hx
  obtain ⟨r, hr, hx⟩ := hx
  exact removePiece_wf B hBle r removal (h r hr) hrm x hx

/-- `remove` computes exactly coverage minus the removal. -/
theorem remove_cov (rs : Ranges) (removal : Range)
    (h : ∀ r ∈ rs, wfB U64 r) (hrm : wfB U64 removal) (n : Nat) :
    covP (remove rs removal) n ↔
      (covP rs n ∧ ¬(removal.begin ≤ n ∧ n ≤ removal.end_)) := by
  unfold remove
  rw [internalCoalesce_cov _ (remove_pieces_wf U64 (le_refl _) rs removal h hrm) n,
    covP_flatMap]
  constructor
  · rintro ⟨r, hr, hc⟩
    rw [removePiece_cov r removal (h r hr) hrm n] at hc
    exact ⟨⟨r, hr, hc.1⟩, hc.2⟩
  · rintro ⟨⟨r, hr, hI⟩, hout⟩
    exact ⟨r, hr, (removePiece_cov r removal (h r hr) hrm n).mpr ⟨hI, hout⟩⟩

theorem remove_wf (B : Nat) (hBle : B ≤ U64) (rs : Ranges) (removal : Range)
    (h : ∀ r ∈ rs, wfB B r) (hrm : wfB B removal) :
    ∀ x ∈ remove rs removal, wfB B x :=
  internalCoalesce_wf B _ (remove_pieces_wf B hBle rs removal h hrm)

/-- Folding `remove` over the right side subtracts every right range from
the coverage. -/
theorem foldl_remove_cov : ∀ (R : List Range) (S : Ranges),
    (∀ r ∈ S, wfB U64 r) → (∀ r ∈ R, wfB U64 r) → ∀ n,
    (covP (R.foldl remove S) n ↔
      (covP S n ∧ ∀ r ∈ R, ¬(r.begin ≤ n ∧ n ≤ r.end_)))
  | [], S, _, _, n => by simp
  | rm :: R', S, hS, hR, n => by
    have hrm : wfB U64 rm := hR rm (by simp)
    have hR' : ∀ r ∈ R', wfB U64 r := fun r hr => hR r (by simp [hr])
    rw [List.foldl_cons]
    rw [foldl_remove_cov R' (remove S rm) (remove_wf U64 (le_refl _) S rm hS hrm) hR' n]
    rw [remove_cov S rm hS hrm n]
    simp only [List.forall_mem_cons]
    itauto

theorem foldl_remove_wf (B : Nat) (hBle : B ≤ U64) : ∀ (R : List Range) (S : Ranges),
    (∀ r ∈ S, wfB B r) → (∀ r ∈ R, wfB B r) →
    ∀ x ∈ R.foldl remove S, wfB B x
  | [], S, hS, _ => hS
  | rm :: R', S, hS, hR => by
    rw [List.foldl_cons]
    exact foldl_remove_wf B hBle R' (remove S rm)
      (remove_wf B hBle S rm hS (hR rm (by simp)))
      (fun r hr => hR r (by simp [hr]))

/-- Folding `remove` over the right side preserves canonicity of a
coalesced state (each `remove` re-coalesces). -/
theorem foldl_remove_canonical : ∀ (R : List Range) (M : Ranges),
    (∀ r ∈ M, wfB (U64 - 1) r) → (∀ r ∈ R, wfB (U64 - 1) r) →
    Canonical (R.foldl remove (internalCoalesce M))
  | [], M, hM, _ => internalCoalesce_canonical M hM
  | rm :: R', M, hM, hR => by
    rw [List.foldl_cons]
    have heq : remove (internalCoalesce M) rm =
        internalCoalesce
          ((internalCoalesce M).flatMap (fun r => removePiece r rm)) := rfl
    rw [heq]
    exact foldl_remove_canonical R' _
      (remove_pieces_wf (U64 - 1) (by unfold U64; omega) _ rm
        (internalCoalesce_wf _ M hM)
        (hR rm (by simp)))
      (fun r hr => hR r (by simp [hr]))

theorem rangesSubtract_eq (left right : Ranges) :
    rangesSubtract left right =
      right.foldl remove (internalCoalesce (internalCoalesce left)) := by
  unfold rangesSubtract coalesce0 coalesce2
  simp

theorem rangesSubtract_cov (left right : Ranges)
    (hL : ∀ r ∈ left, wfB U64 r) (hR : ∀ r ∈ right, wfB U64 r) (n : Nat) :
    covP (rangesSubtract left right) n ↔ (covP left n ∧ ¬ covP right n) := by
  rw [rangesSubtract_eq]
  have h1 : ∀ r ∈ internalCoalesce left, wfB U64 r :=
    internalCoalesce_wf _ _ hL
  have h2 : ∀ r ∈ internalCoalesce (internalCoalesce left), wfB U64 r :=
    internalCoalesce_wf _ _ h1
  rw [foldl_remove_cov right _ h2 hR n, internalCoalesce_cov _ h1 n,
    internalCoalesce_cov _ hL n]
  have hiff : (∀ r ∈ right, ¬(r.begin ≤ n ∧ n ≤ r.end_)) ↔ ¬ covP right n := by
    simp [covP]
  rw [hiff]

theorem rangesSubtract_canonical (left right : Ranges)
    (hL : ∀ r ∈ left, wfB (U64 - 1) r) (hR : ∀ r ∈ right, wfB (U64 - 1) r) :
    Canonical (rangesSubtract left right) := by
  rw [rangesSubtract_eq]
  exact foldl_remove_canonical right (internalCoalesce left)
    (internalCoalesce_wf _ _ hL) hR

theorem rangesAdd_eq (a b : Ranges) : rangesAdd a b = internalCoalesce (a ++ b) := by
  unfold rangesAdd coalesce2
  simp

/-! ## Ranges equality and subset -/

theorem coalesce2_nil_single (l : Ranges) :
    coalesce2 [] [l] = internalCoalesce l := by
  unfold coalesce2
  simp

theorem range_fields_iff (x y : Range) :
    (x.begin = y.begin ∧ x.end_ = y.end_) ↔ x = y :=
  ⟨fun h => Range.eq_of_fields h.1 h.2, fun h => by subst h; exact ⟨rfl, rfl⟩⟩

theorem mem_iff_of_subset_of_length {l r : List Range} (hl : l.Nodup)
    (hr : r.Nodup) (hlen : l.length = r.length) (hsub : ∀ x ∈ l, x ∈ r) :
    ∀ x, x ∈ l ↔ x ∈ r := by
  have hsubf : l.toFinset ⊆ r.toFinset := by
    intro x hx
    rw [List.mem_toFinset] at hx ⊢
    exact hsub x hx
  have hcard : r.toFinset.card ≤ l.toFinset.card := by
    rw [List.toFinset_card_of_nodup hl, List.toFinset_card_of_nodup hr]
    omega
  have heq : l.toFinset = r.toFinset :=
    Finset.eq_of_subset_of_card_le hsubf hcard
  intro x
  rw [← List.mem_toFinset, heq, List.mem_toFinset]

/-- `operator==` on `Ranges` decides exactly equality of the canonical
forms as sets of `(begin, end)` pairs. -/
theorem rangesEqB_iff (a b : Ranges) :
    rangesEqB a b = true ↔
      (∀ x, x ∈ internalCoalesce a ↔ x ∈ internalCoalesce b) := by
  have hna := internalCoalesce_nodup a
  have hnb := internalCoalesce_nodup b
  simp only [rangesEqB, coalesce2_nil_single]
  split_ifs with hlen
  · simp only [List.all_eq_true, List.any_eq_true, decide_eq_true_eq]
    constructor
    · intro h
      refine mem_iff_of_subset_of_length hna hnb hlen ?_
      intro x hx
      obtain ⟨y, hy, hxy⟩ := h x hx
      rw [range_fields_iff] at hxy
      rwa [hxy]
    · intro h x hx
      exact ⟨x, (h x).mp hx, rfl, rfl⟩
  · simp only [Bool.false_eq_true, false_iff]
    intro h
    apply hlen
    have heq : (internalCoalesce a).toFinset = (internalCoalesce b).toFinset := by
      apply Finset.ext
      intro x
      rw [List.mem_toFinset, List.mem_toFinset]
      exact h x
    rw [← List.toFinset_card_of_nodup hna, ← List.toFinset_card_of_nodup hnb,
      heq]

/-- `operator<=` on `Ranges` decides exactly single-range containment of
each canonical left range in some canonical right range. -/
theorem rangesSubsetB_iff (a b : Ranges) :
    rangesSubsetB a b = true ↔
      ∀ x ∈ internalCoalesce a, ∃ y ∈ internalCoalesce b,
        y.begin ≤ x.begin ∧ x.end_ ≤ y.end_ := by
  simp only [rangesSubsetB, coalesce2_nil_single, List.all_eq_true,
    List.any_eq_true, decide_eq_true_eq, ge_iff_le]

/-! ## Parser lemmas -/

/-- The delimiters of the ranges branch. -/
def rangeDelims : List Char := ['[', ']', '-', ',', '\n']

theorem parseRangePairs_ok : ∀ (ts : List String),
    (∀ t ∈ ts, (lexicalCastU64 t).isSome = true) →
    ∃ rs, parseRangePairs ts = .ok rs
  | [], _ => ⟨[], rfl⟩
  | [_], _ => ⟨[], rfl⟩
  | b :: e :: rest, h => by
    have hb := h b (by simp)
    have he := h e (by simp)
    obtain ⟨bv, hcb⟩ := Option.isSome_iff_exists.mp hb
    obtain ⟨ev, hce⟩ := Option.isSome_iff_exists.mp he
    obtain ⟨rs, hrs⟩ := parseRangePairs_ok rest (fun t ht => h t (by simp [ht]))
    exact ⟨⟨bv, ev⟩ :: rs, by simp [parseRangePairs, hcb, hce, hrs]⟩

theorem parseRangePairs_err : ∀ (ts : List String), ts.length % 2 = 0 →
    ∀ t, ts.find? (fun t => (lexicalCastU64 t).isNone) = some t →
    parseRangePairs ts =
      .error ("Expecting non-negative integers in '" ++ t ++ "'")
  | [], _, t, hfind => by simp at hfind
  | [_], hlen, _, _ => by simp at hlen
  | b :: e :: rest, hlen, t, hfind => by
    cases hcb : lexicalCastU64 b with
    | none =>
      rw [List.find?_cons_of_pos _ (by simp [hcb])] at hfind
      cases hfind
      simp [parseRangePairs, hcb]
    | some bv =>
      rw [List.find?_cons_of_neg _ (by simp [hcb])] at hfind
      cases hce : lexicalCastU64 e with
      | none =>
        rw [List.find?_cons_of_pos _ (by simp [hce])] at hfind
        cases hfind
        simp [parseRangePairs, hcb, hce]
      | some ev =>
        rw [List.find?_cons_of_neg _ (by simp [hce])] at hfind
        have hlen' : rest.length % 2 = 0 := by
          simp only [List.length_cons] at hlen
          omega
        have hrec := parseRangePairs_err rest hlen' t hfind
        simp [parseRangePairs, hcb, hce, hrec]

theorem parseRangePairs_error_shape : ∀ (ts : List String) (msg : String),
    parseRangePairs ts = .error msg →
    ∃ t ∈ ts, msg = "Expecting non-negative integers in '" ++ t ++ "'"
  | [], msg, h => by simp [parseRangePairs] at h
  | [_], msg, h => by simp [parseRangePairs] at h
  | b :: e :: rest, msg, h => by
    rw [parseRangePairs] at h
    cases hcb : lexicalCastU64 b with
    | none =>
      rw [hcb] at h
      simp only [Except.error.injEq] at h
      exact ⟨b, by simp, h.symm⟩
    | some bv =>
      rw [hcb] at h
      cases hce : lexicalCastU64 e with
      | none =>
        rw [hce] at h
        simp only [Except.error.injEq] at h
        exact ⟨e, by simp, h.symm⟩
      | some ev =>
        rw [hce] at h
        cases hrec : parseRangePairs rest with
        | error msg2 =>
          rw [hrec] at h
          simp only [Except.error.injEq] at h
          obtain ⟨t, ht, hmsg⟩ := parseRangePairs_error_shape rest msg2 hrec
          exact ⟨t, by simp [ht], h ▸ hmsg⟩
        | ok rs =>
          rw [hrec] at h
          simp at h

theorem parseAsRanges_error_iff (temp : String) :
    (∃ msg, parseAsRanges temp = .error msg) ↔
      ((tokenize temp rangeDelims).length % 2 = 1 ∨
        ∃ t ∈ tokenize temp rangeDelims, lexicalCastU64 t = none) := by
  simp only [parseAsRanges]
  unfold rangeDelims
  split_ifs with hpar
  · constructor
    · intro _
      left
      omega
    · intro _
      exact ⟨_, rfl⟩
  · constructor
    · rintro ⟨msg, hmsg⟩
      right
      by_contra hall
      push_neg at hall
      obtain ⟨rs, hrs⟩ := parseRangePairs_ok _ (fun t ht => by
        cases hct : lexicalCastU64 t with
        | none => exact absurd hct (hall t ht)
        | some v => simp [hct])
      rw [hrs] at hmsg
      simp at hmsg
    · intro h
      rcases h with hodd | ⟨t, ht, hnone⟩
      · omega
      · have hsome : ((tokenize temp ['[', ']', '-', ',', '\n']).find?
            (fun t => (lexicalCastU64 t).isNone)).isSome :=
          List.find?_isSome.mpr ⟨t, ht, by simp [hnone]⟩
        obtain ⟨t0, ht0⟩ := Option.isSome_iff_exists.mp hsome
        have herr := parseRangePairs_err _ (by omega) t0 ht0
        rw [herr]
        exact ⟨_, rfl⟩

theorem parseAsRanges_error_forms (temp : String) (msg : String)
    (h : parseAsRanges temp = .error msg) :
    msg = "Expecting one or more \"ranges\"" ∨
      ∃ t ∈ tokenize temp rangeDelims,
        msg = "Expecting non-negative integers in '" ++ t ++ "'" := by
  simp only [parseAsRanges] at h
  unfold rangeDelims
  split_ifs at h with hpar
  · cases h
    left
    rfl
  · cases hp : parseRangePairs (tokenize temp ['[', ']', '-', ',', '\n']) with
    | error msg2 =>
      rw [hp] at h
      simp only [Except.error.injEq] at h
      obtain ⟨t, ht, hmsg⟩ := parseRangePairs_error_shape _ msg2 hp
      exact Or.inr ⟨t, ht, h ▸ hmsg⟩
    | ok rs =>
      rw [hp] at h
      simp at h

theorem parseAsRanges_err_token (temp : String)
    (heven : (tokenize temp rangeDelims).length % 2 = 0) (t : String)
    (hfind : (tokenize temp rangeDelims).find?
      (fun t => (lexicalCastU64 t).isNone) = some t) :
    parseAsRanges temp =
      .error ("Expecting non-negative integers in '" ++ t ++ "'") := by
  simp only [parseAsRanges]
  unfold rangeDelims at heven hfind
  rw [if_neg (by omega)]
  rw [parseRangePairs_err _ heven t hfind]

theorem parseAsRanges_ok_shape (temp : String) (rs : Ranges)
    (h : parseAsRanges temp = .ok (.ranges rs)) :
    ∃ pairs, rs = internalCoalesce pairs := by
  simp only [parseAsRanges] at h
  split_ifs at h with hpar
  · cases hp : parseRangePairs (tokenize temp ['[', ']', '-', ',', '\n']) with
    | error msg2 =>
      rw [hp] at h
      simp at h
    | ok prs =>
      rw [hp] at h
      simp only [Except.ok.injEq, Value.ranges.injEq] at h
      refine ⟨prs, ?_⟩
      rw [← h]
      unfold coalesce0 coalesce2
      simp

/-- Under the hypotheses of the ranges branch (non-empty stripped text,
balanced brackets, leading `[`), `parse` reduces to `parseAsRanges`. -/
theorem parse_ranges_path (s : String)
    (h1 : ¬ (stripSpaces s).data.length = 0)
    (h2 : checkBracketsMatching (stripSpaces s) '\x7b' '\x7d' = true)
    (h3 : checkBracketsMatching (stripSpaces s) '[' ']' = true)
    (h4 : checkBracketsMatching (stripSpaces s) '(' ')' = true)
    (h5 : (stripSpaces s).data.head? = some '[') :
    parse s = parseAsRanges (stripSpaces s) := by
  simp only [parse]
  rw [if_neg h1, if_neg (not_not_intro ⟨h2, h3, h4⟩), if_pos h5]

/-- Every successful ranges result of `parse` is the coalesce of some list
of parsed pairs. -/
theorem parse_ok_ranges_shape (s : String) (rs : Ranges)
    (h : parse s = .ok (.ranges rs)) :
    ∃ pairs, rs = internalCoalesce pairs := by
  simp only [parse] at h
  split_ifs at h with h1 h2 h3 h4 h5 h6
  all_goals try exact absurd h (by simp)
  · exact parseAsRanges_ok_shape _ rs h
  · cases hd : lexicalCastDouble (stripSpaces s) with
    | some q =>
      rw [hd] at h
      exact absurd h (by simp)
    | none =>
      rw [hd] at h
      exact absurd h (by simp)

/-! ## Removal splitting of a strictly containing range -/

theorem u64add1_pred {x : Nat} (h1 : 1 ≤ x) (h2 : x < U64) :
    u64add1 (x - 1) = x := by
  unfold u64add1
  have hx : x - 1 + 1 = x := by omega
  rw [hx]
  exact Nat.mod_eq_of_lt h2

/-- A stored range strictly containing the removal is split into the front
and back halves (the C++ emplaces the back half twice; the duplicate is
coalesced away). -/
theorem remove_split (store r : Range) (h1 : store.begin < r.begin)
    (h2 : r.end_ < store.end_) (h3 : r.begin ≤ r.end_)
    (h4 : store.end_ < U64) :
    remove [store] r =
      [⟨store.begin, r.begin - 1⟩, ⟨r.end_ + 1, store.end_⟩] := by
  have hs1 : u64sub1 r.begin = r.begin - 1 := u64sub1_eq (by omega) (by omega)
  have ha1 : u64add1 r.end_ = r.end_ + 1 := u64add1_eq (by omega)
  have hp : removePiece store r =
      [⟨store.begin, r.begin - 1⟩, ⟨r.end_ + 1, store.end_⟩,
        ⟨r.end_ + 1, store.end_⟩] := by
    unfold removePiece
    rw [if_neg (by omega), if_pos ⟨h1, by omega⟩, if_neg (by omega),
      if_pos (by omega)]
    rw [hs1, ha1]
    rfl
  unfold remove
  rw [List.flatMap_cons, List.flatMap_nil, List.append_nil, hp]
  have hfb : rangeLe (⟨store.begin, r.begin - 1⟩ : Range)
      (⟨r.end_ + 1, store.end_⟩ : Range) := Or.inl (by dsimp only; omega)
  have hsort : sortRanges [(⟨store.begin, r.begin - 1⟩ : Range),
      ⟨r.end_ + 1, store.end_⟩, ⟨r.end_ + 1, store.end_⟩] =
      [⟨store.begin, r.begin - 1⟩, ⟨r.end_ + 1, store.end_⟩,
        ⟨r.end_ + 1, store.end_⟩] := by
    unfold sortRanges
    simp only [List.insertionSort, List.orderedInsert_nil]
    rw [List.orderedInsert_of_le _ _ (rangeLe_refl _),
      List.orderedInsert_of_le _ _ hfb]
  have hstep1 : scanStep ([], (⟨store.begin, r.begin - 1⟩ : Range))
      (⟨store.begin, r.begin - 1⟩ : Range) =
      ([], ⟨store.begin, r.begin - 1⟩) := by
    simp [scanStep]
  have hne : ¬ ((⟨r.end_ + 1, store.end_⟩ : Range).begin =
      (⟨store.begin, r.begin - 1⟩ : Range).begin) := by
    dsimp only
    omega
  have hstep2 : scanStep ([], (⟨store.begin, r.begin - 1⟩ : Range))
      (⟨r.end_ + 1, store.end_⟩ : Range) =
      ([⟨store.begin, r.begin - 1⟩], ⟨r.end_ + 1, store.end_⟩) := by
    have hadd : u64add1 ((⟨store.begin, r.begin - 1⟩ : Range).end_) = r.begin := by
      dsimp only
      exact u64add1_pred (by omega) (by omega)
    simp only [scanStep]
    rw [if_neg (by omega), if_neg (by omega), if_pos (by omega), hadd,
      if_neg (by omega)]
    rfl
  have hstep3 : scanStep ([(⟨store.begin, r.begin - 1⟩ : Range)],
      (⟨r.end_ + 1, store.end_⟩ : Range)) (⟨r.end_ + 1, store.end_⟩ : Range) =
      ([⟨store.begin, r.begin - 1⟩], ⟨r.end_ + 1, store.end_⟩) := by
    simp [scanStep]
  rw [internalCoalesce_eq_cons hsort, List.foldl_cons, List.foldl_cons,
    List.foldl_cons, List.foldl_nil, hstep1, hstep2, hstep3]
  rfl

/-! ## Singleton coalesce -/

theorem internalCoalesce_singleton (r : Range) : internalCoalesce [r] = [r] := by
  have hs : sortRanges [r] = [r] := rfl
  have hstep : scanStep (([] : List Range), r) r = ([], r) := by
    simp [scanStep]
  rw [internalCoalesce_eq_cons hs, List.foldl_cons, List.foldl_nil, hstep]
  rfl

/-! ## Claim theorems -/

/-- Claim C1, counterexample: the input `[(5, 2^64-1), (7, 9)]` consists of
well-formed ranges (`begin <= end`), yet the coalesced output is not
canonical — the `uint64_t` expression `current.end + 1` wraps to `0`, the
adjacency test `range.start <= current.end + 1` fails, and the routine
emits the two overlapping ranges unmerged. -/
theorem c1_counterexample :
    (∀ r ∈ ([⟨5, 18446744073709551615⟩, ⟨7, 9⟩] : Ranges),
      r.begin ≤ r.end_) ∧
    ¬ Canonical (internalCoalesce [⟨5, 18446744073709551615⟩, ⟨7, 9⟩]) := by
  constructor
  · decide
  · decide

/-- Claim C1 (amended): for every input list of well-formed ranges whose
ends lie strictly below `2^64 - 1` (so that `current.end + 1` cannot wrap),
the output of coalesce is canonical: elements well-formed, sorted ascending
by `begin`, mutually non-overlapping and non-adjacent — regardless of
whether the input is unsorted, overlapping, or already canonical. -/
theorem c1_coalesce_canonical (rs : Ranges)
    (h : ∀ r ∈ rs, r.begin ≤ r.end_ ∧ r.end_ < U64 - 1) :
    Canonical (internalCoalesce rs) :=
  internalCoalesce_canonical rs h

/-- Claim C1, witness at a concrete unsorted overlapping input. -/
theorem c1_coalesce_canonical_witness :
    Canonical (internalCoalesce [⟨4, 6⟩, ⟨1, 2⟩, ⟨5, 10⟩]) :=
  c1_coalesce_canonical _ (by decide)

/-- Claim C2: for every input list of well-formed `uint64_t` ranges, the
set of integers covered by the output of coalesce equals the set covered by
the input; the empty input yields the empty `Ranges` and a one-element
input yields that element unchanged. -/
theorem c2_coalesce_coverage (rs : Ranges)
    (h : ∀ r ∈ rs, r.begin ≤ r.end_ ∧ r.end_ < U64) :
    (∀ n, covP (internalCoalesce rs) n ↔ covP rs n) ∧
    internalCoalesce ([] : Ranges) = [] ∧
    (∀ r : Range, internalCoalesce [r] = [r]) :=
  ⟨fun n => internalCoalesce_cov rs h n, rfl, internalCoalesce_singleton⟩

/-- Claim C2, witness at a concrete overlapping input and point. -/
theorem c2_coalesce_coverage_witness :
    covP (internalCoalesce [⟨2, 3⟩, ⟨3, 7⟩]) 5 ↔ covP [⟨2, 3⟩, ⟨3, 7⟩] 5 :=
  (c2_coalesce_coverage [⟨2, 3⟩, ⟨3, 7⟩] (by decide)).1 5

/-- Claim C3, counterexample: the claim asserts `Ranges([1-5])` is not a
subset of `Ranges([1-2,3-5])`, but `operator<=` coalesces both sides first,
the right side coalesces to `[1-5]` (`2 + 1 == 3` makes the two ranges
adjacent), and the code returns `true`. -/
theorem c3_counterexample :
    rangesSubsetB [⟨1, 5⟩] [⟨1, 2⟩, ⟨3, 5⟩] = true := by
  decide

/-- Claim C3 (amended): `operator<=` requires each range of the coalesced
left side to be contained within a single range of the coalesced right
side; `Ranges([1-5])` is a subset of `Ranges([1-5])` and — because both
sides are canonicalized first — also of `Ranges([1-2,3-5])`; a left range
is rejected only when its coverage on the right has a genuine gap, as in
`Ranges([1-2,4-5])`. -/
theorem c3_subset_single_containment :
    (∀ a b : Ranges, rangesSubsetB a b = true ↔
      ∀ x ∈ internalCoalesce a, ∃ y ∈ internalCoalesce b,
        y.begin ≤ x.begin ∧ x.end_ ≤ y.end_) ∧
    rangesSubsetB [⟨1, 5⟩] [⟨1, 5⟩] = true ∧
    rangesSubsetB [⟨1, 5⟩] [⟨1, 2⟩, ⟨3, 5⟩] = true ∧
    rangesSubsetB [⟨1, 5⟩] [⟨1, 2⟩, ⟨4, 5⟩] = false :=
  ⟨rangesSubsetB_iff, by decide, by decide, by decide⟩

/-- Claim C4: `Set([a,b])` and `Set([b,a])` have equal cardinality and every
element of the left occurs in the right, so the claim (and the code's own
comment) says they are equal — but `operator==` compares `left.item(i)`
with `right.item(i)` (index `i`, not the inner loop's `j`), so the code
returns `false`: positional comparison instead of value-based matching. -/
theorem c4_set_eq_positional_bug :
    (["a", "b"] : List String).length = (["b", "a"] : List String).length ∧
    (∀ x ∈ (["a", "b"] : List String), x ∈ (["b", "a"] : List String)) ∧
    setEqB ["a", "b"] ["b", "a"] = false := by
  refine ⟨rfl, by decide, by decide⟩

/-- Claim C5, counterexample: subtracting nothing from the well-formed
ranges `[(5, 2^64-1), (7, 9)]` leaves the non-canonical coalesce output
(the `uint64_t` wraparound of `current.end + 1` defeats merging), so the
result of `operator-` is not always canonical. -/
theorem c5_counterexample :
    (∀ r ∈ ([⟨5, 18446744073709551615⟩, ⟨7, 9⟩] : Ranges),
      r.begin ≤ r.end_) ∧
    ¬ Canonical (rangesSubtract [⟨5, 18446744073709551615⟩, ⟨7, 9⟩] []) := by
  constructor
  · decide
  · decide

/-- Claim C5 (amended): for ranges with ends strictly below `2^64 - 1`,
`operator-` computes exact set difference of integer coverage and yields a
canonical result; a stored range strictly containing a removed range `r`
is split into `[store.begin, r.begin-1]` and `[r.end+1, store.end]`; and
removing `[3-3]` from `[1-5]` yields exactly `[1-2, 4-5]`. -/
theorem c5_subtract_difference (a b : Ranges)
    (ha : ∀ r ∈ a, r.begin ≤ r.end_ ∧ r.end_ < U64 - 1)
    (hb : ∀ r ∈ b, r.begin ≤ r.end_ ∧ r.end_ < U64 - 1) :
    (∀ n, covP (rangesSubtract a b) n ↔ (covP a n ∧ ¬ covP b n)) ∧
    Canonical (rangesSubtract a b) ∧
    (∀ store r : Range, store.begin < r.begin → r.end_ < store.end_ →
      r.begin ≤ r.end_ → store.end_ < U64 →
      remove [store] r =
        [⟨store.begin, r.begin - 1⟩, ⟨r.end_ + 1, store.end_⟩]) ∧
    rangesSubtract [⟨1, 5⟩] [⟨3, 3⟩] = [⟨1, 2⟩, ⟨4, 5⟩] := by
  have hU : U64 - 1 < U64 := by unfold U64; omega
  have ha' : ∀ r ∈ a, wfB U64 r :=
    fun r hr => ⟨(ha r hr).1, lt_trans (ha r hr).2 hU⟩
  have hb' : ∀ r ∈ b, wfB U64 r :=
    fun r hr => ⟨(hb r hr).1, lt_trans (hb r hr).2 hU⟩
  refine ⟨fun n => rangesSubtract_cov a b ha' hb' n,
    rangesSubtract_canonical a b ha hb, remove_split, by decide⟩

/-- Claim C5, witness: coverage of `[1-5] - [3-3]` at the point `4`. -/
theorem c5_subtract_difference_witness :
    covP (rangesSubtract [⟨1, 5⟩] [⟨3, 3⟩]) 4 ↔
      (covP [⟨1, 5⟩] 4 ∧ ¬ covP [⟨3, 3⟩] 4) :=
  (c5_subtract_difference [⟨1, 5⟩] [⟨3, 3⟩] (by decide) (by decide)).1 4

/-- Claim C6: `operator==` on `Ranges` holds exactly when the canonical
(coalesced) forms contain the same set of `(begin, end)` pairs, regardless
of how the raw inputs are ordered or split; concretely,
`Ranges([1-3,5-5]) == Ranges([1-1,2-3,5-5])` and both differ from
`Ranges([1-5])`. -/
theorem c6_ranges_eq_coverage :
    (∀ a b : Ranges, rangesEqB a b = true ↔
      (∀ x, x ∈ internalCoalesce a ↔ x ∈ internalCoalesce b)) ∧
    rangesEqB [⟨1, 3⟩, ⟨5, 5⟩] [⟨1, 1⟩, ⟨2, 3⟩, ⟨5, 5⟩] = true ∧
    rangesEqB [⟨1, 3⟩, ⟨5, 5⟩] [⟨1, 5⟩] = false ∧
    rangesEqB [⟨1, 1⟩, ⟨2, 3⟩, ⟨5, 5⟩] [⟨1, 5⟩] = false :=
  ⟨rangesEqB_iff, by decide, by decide, by decide⟩

/-- Claim C7: for well-formed `uint64_t` ranges, if the coverages of `A`
and `B` are disjoint then `difference(union(A,B), B)` covers exactly what
`A` covers; and for arbitrary `A`, `B` it covers a subset of `A`. -/
theorem c7_union_difference (a b : Ranges)
    (ha : ∀ r ∈ a, r.begin ≤ r.end_ ∧ r.end_ < U64)
    (hb : ∀ r ∈ b, r.begin ≤ r.end_ ∧ r.end_ < U64) :
    ((∀ n, ¬(covP a n ∧ covP b n)) →
      ∀ n, covP (rangesSubtract (rangesAdd a b) b) n ↔ covP a n) ∧
    (∀ n, covP (rangesSubtract (rangesAdd a b) b) n → covP a n) := by
  have hab : ∀ r ∈ a ++ b, wfB U64 r := by
    intro r hr
    rcases List.mem_append.mp hr with hr | hr
    · exact ha r hr
    · exact hb r hr
  have haddwf : ∀ r ∈ rangesAdd a b, wfB U64 r := by
    rw [rangesAdd_eq]
    exact internalCoalesce_wf _ _ hab
  have hcov : ∀ n, covP (rangesSubtract (rangesAdd a b) b) n ↔
      ((covP a n ∨ covP b n) ∧ ¬ covP b n) := by
    intro n
    rw [rangesSubtract_cov _ _ haddwf hb n, rangesAdd_eq,
      internalCoalesce_cov _ hab n, covP_append]
  constructor
  · intro hdisj n
    rw [hcov n]
    have := hdisj n
    itauto
  · intro n h
    rw [hcov n] at h
    exact h.1.resolve_right h.2

/-- Claim C7, witness at disjoint `A = [1-2]`, `B = [5-6]`, point `1`. -/
theorem c7_union_difference_witness :
    covP (rangesSubtract (rangesAdd [⟨1, 2⟩] [⟨5, 6⟩]) [⟨5, 6⟩]) 1 ↔
      covP [⟨1, 2⟩] 1 :=
  (c7_union_difference [⟨1, 2⟩] [⟨5, 6⟩] (by decide) (by decide)).1
    (by
      intro n h
      simp only [covP] at h
      obtain ⟨⟨r1, hr1, hn1⟩, ⟨r2, hr2, hn2⟩⟩ := h
      rw [List.mem_singleton] at hr1 hr2
      subst hr1
      subst hr2
      have ha : (1 : ℕ) ≤ n ∧ n ≤ 2 := hn1
      have hb : (5 : ℕ) ≤ n ∧ n ≤ 6 := hn2
      omega) 1

/-- Claim C8, counterexample: `parse "[5-2]"` succeeds and returns
`Ranges([5-2])`, which is not canonical (`begin > end`) — the parser's
tokenization does not reject `begin > end` pairs, so not every
`[`-prefixed input yields a canonical `Ranges`. -/
theorem c8_counterexample :
    parse "[5-2]" = .ok (.ranges [⟨5, 2⟩]) ∧ ¬ Canonical [⟨5, 2⟩] := by
  constructor
  · decide
  · decide

/-- Claim C8 (amended): the parser round-trips behave as specified on all
six examples, and every `[`-prefixed success is the coalesce of its parsed
begin/end pairs — hence canonical whenever those pairs are well-formed with
ends below `2^64 - 1` (a malformed pair such as `5-2` survives to the
output). -/
theorem c8_parse_roundtrip :
    parse "[0-100, 200-300]" = .ok (.ranges [⟨0, 100⟩, ⟨200, 300⟩]) ∧
    parse "\x7balpha, beta\x7d" = .ok (.set ["alpha", "beta"]) ∧
    parse "3.5" = .ok (.scalar (7 / 2)) ∧
    parse "hello" = .ok (.text "hello") ∧
    parse "[1-2" = .error "Mismatched brackets" ∧
    parse "" = .error "Expecting non-empty string" ∧
    (∀ s rs, parse s = .ok (.ranges rs) →
      ∃ pairs, rs = internalCoalesce pairs ∧
        ((∀ r ∈ pairs, r.begin ≤ r.end_ ∧ r.end_ < U64 - 1) →
          Canonical rs)) := by
  refine ⟨by decide, by decide, ?_, by decide, by decide, by decide, ?_⟩
  · have hd3 : digitsToNat ['3'] = 3 := by decide
    have hd5 : digitsToNat ['5'] = 5 := by decide
    have h1 : parse "3.5" = .ok (.scalar ((digitsToNat ['3'] : ℚ) +
        (digitsToNat ['5'] : ℚ) / (10 : ℚ) ^ (['5'] : List Char).length)) := by
      rfl
    rw [h1, hd3, hd5]
    have h2 : ((3 : ℕ) : ℚ) + ((5 : ℕ) : ℚ) / (10 : ℚ) ^
        (['5'] : List Char).length = 7 / 2 := by
      push_cast
      norm_num
    rw [h2]
  · intro s rs h
    obtain ⟨pairs, hp⟩ := parse_ok_ranges_shape s rs h
    exact ⟨pairs, hp, fun hwf => hp ▸ internalCoalesce_canonical pairs hwf⟩

/-- Claim C8, witness: instantiation of the general ranges-branch shape at
the round-trip example. -/
theorem c8_parse_roundtrip_witness :
    ∃ pairs, ([⟨0, 100⟩, ⟨200, 300⟩] : Ranges) = internalCoalesce pairs ∧
      ((∀ r ∈ pairs, r.begin ≤ r.end_ ∧ r.end_ < U64 - 1) →
        Canonical [⟨0, 100⟩, ⟨200, 300⟩]) :=
  c8_parse_roundtrip.2.2.2.2.2.2 "[0-100, 200-300]" _ c8_parse_roundtrip.1

/-- Claim C9: for every input whose stripped text is non-empty,
bracket-balanced and `[`-prefixed, `parse` fails with an
invalid-range-format error exactly when the tokenization yields an odd
token count or some token fails the non-negative-integer cast; and in the
bad-token case the error message names the first offending token. -/
theorem c9_invalid_range_format (s : String)
    (h1 : ¬ (stripSpaces s).data.length = 0)
    (h2 : checkBracketsMatching (stripSpaces s) '\x7b' '\x7d' = true)
    (h3 : checkBracketsMatching (stripSpaces s) '[' ']' = true)
    (h4 : checkBracketsMatching (stripSpaces s) '(' ')' = true)
    (h5 : (stripSpaces s).data.head? = some '[') :
    ((∃ msg, parse s = .error msg ∧
        (msg = "Expecting one or more \"ranges\"" ∨
          ∃ t ∈ tokenize (stripSpaces s) rangeDelims,
            msg = "Expecting non-negative integers in '" ++ t ++ "'")) ↔
      ((tokenize (stripSpaces s) rangeDelims).length % 2 = 1 ∨
        ∃ t ∈ tokenize (stripSpaces s) rangeDelims,
          lexicalCastU64 t = none)) ∧
    ((tokenize (stripSpaces s) rangeDelims).length % 2 = 0 →
      ∀ t, (tokenize (stripSpaces s) rangeDelims).find?
          (fun t => (lexicalCastU64 t).isNone) = some t →
        parse s = .error ("Expecting non-negative integers in '" ++ t ++ "'")) := by
  have hpath := parse_ranges_path s h1 h2 h3 h4 h5
  constructor
  · rw [hpath]
    constructor
    · rintro ⟨msg, hmsg, _⟩
      exact (parseAsRanges_error_iff _).mp ⟨msg, hmsg⟩
    · intro h
      obtain ⟨msg, hmsg⟩ := (parseAsRanges_error_iff _).mpr h
      exact ⟨msg, hmsg, parseAsRanges_error_forms _ msg hmsg⟩
  · intro heven t hfind
    rw [hpath]
    exact parseAsRanges_err_token _ heven t hfind

/-- Claim C9, witness: `parse "[1-x]"` fails naming the bad token `x`. -/
theorem c9_invalid_range_format_witness :
    parse "[1-x]" = .error "Expecting non-negative integers in 'x'" :=
  (c9_invalid_range_format "[1-x]" (by decide) (by decide) (by decide)
    (by decide) (by decide)).2 (by decide) "x" (by decide)

/-- Claim C10: for every non-empty input list of well-formed ranges, the
emitted `count` of the canonicalizer's scan is at least `1` and never
exceeds the size of the working list, and the copied-out result holds
exactly `count` ranges — so none of the `CHECK` assertions in `coalesce`
can fire. -/
theorem c10_coalesce_checks (rs : Ranges) (hne : rs ≠ [])
    (h : ∀ r ∈ rs, r.begin ≤ r.end_) :
    (internalCoalesce rs).length = coalesceCount rs ∧
    1 ≤ coalesceCount rs ∧ coalesceCount rs ≤ rs.length := by
  rcases hs : sortRanges rs with _ | ⟨first, rest⟩
  · exact absurd (sortRanges_eq_nil hs) hne
  · have hstep : scanStep (([] : List Range), first) first = ([], first) := by
      simp [scanStep]
    rw [internalCoalesce_eq_cons hs, coalesceCount_eq_cons hs,
      List.foldl_cons, hstep]
    refine ⟨by simp, by omega, ?_⟩
    have hlen := scan_len rest [] first
    have hlen2 : (first :: rest).length = rs.length := by
      rw [← hs, length_sortRanges]
    simp only [List.length_nil] at hlen
    simp only [List.length_cons] at hlen2
    omega

/-- Claim C10, witness at a concrete three-element input. -/
theorem c10_coalesce_checks_witness :
    (internalCoalesce [⟨4, 6⟩, ⟨1, 2⟩, ⟨5, 10⟩]).length =
      coalesceCount [⟨4, 6⟩, ⟨1, 2⟩, ⟨5, 10⟩] ∧
    1 ≤ coalesceCount [⟨4, 6⟩, ⟨1, 2⟩, ⟨5, 10⟩] ∧
    coalesceCount [⟨4, 6⟩, ⟨1, 2⟩, ⟨5, 10⟩] ≤
      ([⟨4, 6⟩, ⟨1, 2⟩, ⟨5, 10⟩] : Ranges).length :=
  c10_coalesce_checks _ (by decide) (by decide)

end Mesos
